import Mathlib

/-!
Verification of the noteshrink color-quantization pipeline (Go).

The Go source (noteshrink.go) works on `[3]float32` colors; the embedding
models float32 arithmetic with exact rationals (ℚ).  Go panics (out-of-range
slice indexing on empty inputs) are modelled with `Option`: `none` means the
Go program panics on that input.  The pseudo-random shuffle used by the pixel
sampler is modelled by passing the post-shuffle list as an explicit argument.
-/

namespace Noteshrink

/-- The color type `rgbf` from the source: `type rgbf [3]float32`.
Index 0 is `r`, index 1 is `g`, index 2 is `b`. -/
structure rgbf where
  r : ℚ
  g : ℚ
  b : ℚ
deriving DecidableEq, Repr

/-- The Go `Option` configuration struct (primed to keep Lean's `Option`,
which models Go panics, available). -/
structure Option' where
  sampleFraction : ℚ
  brightnessThreshold : ℚ
  saturationThreshold : ℚ
  numColors : ℤ
  kmeansMaxIter : ℤ
  saturate : Bool
  whiteBackground : Bool
deriving DecidableEq, Repr

/-- `MakeDefaultOption` from the source: `{0.05, 0.25, 0.20, 8, 40, true, true}`. -/
def MakeDefaultOption : Option' :=
  { sampleFraction := 5/100
    brightnessThreshold := 25/100
    saturationThreshold := 20/100
    numColors := 8
    kmeansMaxIter := 40
    saturate := true
    whiteBackground := true }

/-- The source's own `max` helper on float32 (`if a > b { return a } else { return b }`). -/
def maxf (a b : ℚ) : ℚ := if b < a then a else b

/-- The source's own `min` helper on float32 (`if a > b { return b } else { return a }`). -/
def minf (a b : ℚ) : ℚ := if b < a then b else a

/-- The source's own `abs` helper on float32 (`if a < 0 { return -a } else { return a }`). -/
def absf (a : ℚ) : ℚ := if a < 0 then -a else a

theorem maxf_eq_max (a b : ℚ) : maxf a b = max a b := by
  unfold maxf
  rcases le_or_lt a b with h | h
  · rw [if_neg (not_lt.mpr h), max_eq_right h]
  · rw [if_pos h, max_eq_left h.le]

theorem minf_eq_min (a b : ℚ) : minf a b = min a b := by
  unfold minf
  rcases le_or_lt a b with h | h
  · rw [if_neg (not_lt.mpr h), min_eq_left h]
  · rw [if_pos h, min_eq_right h.le]

theorem absf_eq_abs (a : ℚ) : absf a = |a| := by
  unfold absf
  rcases lt_or_le a 0 with h | h
  · rw [if_pos h, abs_of_neg h]
  · rw [if_neg (not_lt.mpr h), abs_of_nonneg h]

/-- Go's float-to-int conversion `int(q)`: truncation toward zero. -/
def truncQ (q : ℚ) : ℤ := if q < 0 then -⌊-q⌋ else ⌊q⌋

theorem truncQ_of_nonneg (q : ℚ) (h : 0 ≤ q) : truncQ q = ⌊q⌋ := by
  unfold truncQ
  rw [if_neg (not_lt.mpr h)]

/-- `rgbToHsv` from the source.  Returns `(h, s, v)`.  The source shadows the
builtin names: its local `max`/`min` are the helpers `maxf`/`minf` above. -/
def rgbToHsv (p : rgbf) : ℚ × ℚ × ℚ :=
  let r := p.r / 255
  let g := p.g / 255
  let b := p.b / 255
  let mx := maxf (maxf r g) b
  let mn := minf (minf r g) b
  let d := mx - mn
  let h :=
    (if 0 < d then
      (if mx = r then
        (let t := (g - b) / d
         if t < 0 then t + 6 else t)
       else if mx = g then 2 + (b - r) / d
       else 4 + (r - g) / d)
     else d) / 6
  let s := if 0 < mx then d / mx else d
  (h, s, mx)

/-- `hsvToRgb` from the source.  The `switch i { default: case 0: ... case 5: ... }`
is an if-chain on `i := int(h*6)`; the default branch leaves `r = g = b = v`. -/
def hsvToRgb (h s v : ℚ) : rgbf :=
  if 0 < s then
    let h6 := h * 6
    let i := truncQ h6
    let f := h6 - (i : ℚ)
    if i = 0 then ⟨v * 255, v * (1 - s * (1 - f)) * 255, v * (1 - s) * 255⟩
    else if i = 1 then ⟨v * (1 - s * f) * 255, v * 255, v * (1 - s) * 255⟩
    else if i = 2 then ⟨v * (1 - s) * 255, v * 255, v * (1 - s * (1 - f)) * 255⟩
    else if i = 3 then ⟨v * (1 - s) * 255, v * (1 - s * f) * 255, v * 255⟩
    else if i = 4 then ⟨v * (1 - s * (1 - f)) * 255, v * (1 - s) * 255, v * 255⟩
    else if i = 5 then ⟨v * 255, v * (1 - s) * 255, v * (1 - s * f) * 255⟩
    else ⟨v * 255, v * 255, v * 255⟩
  else ⟨v * 255, v * 255, v * 255⟩

/-- `squareDistance` from the source: sum over channels of `(a[i]-b[i])*(a[i]-b[i])`. -/
def squareDistance (a b : rgbf) : ℚ :=
  (a.r - b.r) * (a.r - b.r) + (a.g - b.g) * (a.g - b.g) + (a.b - b.b) * (a.b - b.b)

/-- `add` from the source: componentwise sum. -/
def add (a b : rgbf) : rgbf := ⟨a.r + b.r, a.g + b.g, a.b + b.b⟩

/-- `mul` from the source: componentwise scaling. -/
def mul (a : rgbf) (scalar : ℚ) : rgbf := ⟨a.r * scalar, a.g * scalar, a.b * scalar⟩

/-- `round` from the source: `float32(int(v + 0.5))`. -/
def round (v : ℚ) : ℚ := (truncQ (v + 1/2) : ℚ)

/-- The loop of `closest`: runs over the remaining centers with the current
best index `idx`, current best distance `minimum`, and next position `i`. -/
def closestAux (p : rgbf) : List rgbf → ℕ → ℚ → ℕ → ℕ
  | [], idx, _, _ => idx
  | m :: rest, idx, minimum, i =>
    let squaredDistance := squareDistance p m
    if squaredDistance < minimum then closestAux p rest i squaredDistance (i + 1)
    else closestAux p rest idx minimum (i + 1)

/-- `closest` from the source: index of the first center at minimal squared
distance.  Go reads `means[0]` and panics when `means` is empty; the `[]` case
here is junk (0) and every theorem below supplies a nonempty list. -/
def closest (p : rgbf) (means : List rgbf) : ℕ :=
  match means with
  | [] => 0
  | m0 :: rest => closestAux p rest 0 (squareDistance p m0) 1

/-- `createForegroundMask` from the source.  The Go code first materializes the
per-sample saturation and value lists, then combines them elementwise; the
`zipWith` below consumes those two lists the same way. -/
def createForegroundMask (bgColor : rgbf) (samples : List rgbf) (option : Option') :
    List Bool :=
  let sBg := (rgbToHsv bgColor).2.1
  let vBg := (rgbToHsv bgColor).2.2
  let sSamples := samples.map (fun sample => (rgbToHsv sample).2.1)
  let vSamples := samples.map (fun sample => (rgbToHsv sample).2.2)
  List.zipWith
    (fun s v =>
      decide (option.brightnessThreshold ≤ absf (vBg - v)) ||
      decide (option.saturationThreshold ≤ absf (sBg - s)))
    sSamples vSamples

/-- `applyPalette` from the source.  Go indexes `fgMask[i]` alongside `img[i]`;
the mask has the same length as `img`, so the pairing is a `zipWith`.
`palette[minidx]` is in range whenever `palette` is nonempty (Go panics on an
empty palette inside `closest`); the `getD` junk default is never reached in
the theorems below. -/
def applyPalette (img palette : List rgbf) (origBgColor bgColor : rgbf)
    (option : Option') : List rgbf :=
  let fgMask := createForegroundMask origBgColor img option
  List.zipWith
    (fun p fg =>
      if fg = false then bgColor
      else
        let minidx := closest p palette
        if minidx = 0 then bgColor else palette.getD minidx ⟨0, 0, 0⟩)
    img fgMask

/-- `saturatePalette` from the source.  When every entry has the same
saturation the Go code divides 0 by 0, producing a float32 NaN; the only
downstream use of the result is the `0 < s` test in `hsvToRgb`, which is false
for NaN exactly as it is for the rational junk value `0/0 = 0`, so the
rendered colors coincide with the Go ones. -/
def saturatePalette (palette : List rgbf) : List rgbf :=
  let maxSat := palette.foldl (fun acc pal => maxf acc (rgbToHsv pal).2.1) 0
  let minSat := palette.foldl (fun acc pal => minf acc (rgbToHsv pal).2.1) 1
  palette.map (fun pal =>
    let h := (rgbToHsv pal).1
    let s := (rgbToHsv pal).2.1
    let v := (rgbToHsv pal).2.2
    hsvToRgb h ((s - minSat) / (maxSat - minSat)) v)

/-- Go's `uint8(f)` conversion applied to a channel (truncation; the
conversion is only applied to in-range `[0,255]` channel values in this
program). -/
def natOfChannel (q : ℚ) : ℕ := (truncQ q).toNat

/-- `quantize` from the source: per channel, `(uint8(v)>>shift)<<shift + halfbin`
in uint8 arithmetic. -/
def quantize (image : List rgbf) (bitsPerChannel : ℕ) : List rgbf :=
  let shift := 8 - bitsPerChannel
  let halfbin := ((1 <<< shift) >>> 1) % 256
  image.map (fun p =>
    ⟨((((natOfChannel p.r >>> shift) <<< shift) + halfbin) % 256 : ℕ),
     ((((natOfChannel p.g >>> shift) <<< shift) + halfbin) % 256 : ℕ),
     ((((natOfChannel p.b >>> shift) <<< shift) + halfbin) % 256 : ℕ)⟩)

/-- The counting loop of `findBackgroundColor`: `count` is the Go map (zero
default), `maxcount`/`maxvalue` the running mode.  Note the loop starts at
index 1 and the map starts empty, so the first element's own occurrence is
never added to the map. -/
def bgGo : List rgbf → (rgbf → ℕ) → ℕ → rgbf → rgbf
  | [], _, _, maxvalue => maxvalue
  | v :: rest, count, maxcount, maxvalue =>
    let c := count v + 1
    if maxcount < c then bgGo rest (fun w => if w = v then c else count w) c v
    else bgGo rest (fun w => if w = v then c else count w) maxcount maxvalue

/-- `findBackgroundColor` from the source.  Go reads `quantized[0]` and panics
on an empty sample list: that is the `none` case. -/
def findBackgroundColor (image : List rgbf) (bitsPerChannel : ℕ) : Option rgbf :=
  match quantize image bitsPerChannel with
  | [] => none
  | q0 :: rest => some (bgGo rest (fun _ => 0) 1 q0)

/-- `samplePixels` from the source.  `shuffled` stands for the result of
`rand.Shuffle` on a copy of the image (a permutation; the source buffer is not
mutated).  `numSamples := int(float32(numPixels) * option.SampleFraction)`;
the prefix loop runs `numSamples` times (zero times when it is negative, a
panic when it exceeds the pixel count — excluded by `sampleFraction ≤ 1`). -/
def samplePixels (shuffled : List rgbf) (option : Option') : List rgbf :=
  let numPixels := shuffled.length
  let numSamples := truncQ ((numPixels : ℚ) * option.sampleFraction)
  shuffled.take numSamples.toNat

/-- The seeding loop of `kMeans`: `for i := 0; i < k; i++` with
`h := float32(i) / float32(k-1)` (for `k ≤ 0` the loop body never runs). -/
def initialMeans (k : ℤ) : List rgbf :=
  (List.range k.toNat).map (fun i : ℕ => hsvToRgb ((i : ℚ) / ((k : ℚ) - 1)) 1 1)

/-- The assignment step of `kMeans`: each data point joins its closest center. -/
def assignStep (data : List rgbf) (means : List rgbf) : List ℕ :=
  data.map (fun d => closest d means)

/-- The accumulation loop of the update step: scatter each point onto its
cluster's running sum and bump that cluster's member count.  An out-of-range
cluster index would panic in Go; here `List.set` ignores it, and the theorems
below only use in-range assignments (as produced by `closest`). -/
def accumulate : List (rgbf × ℕ) → List (rgbf × ℕ) → List (rgbf × ℕ)
  | [], acc => acc
  | (p, cluster) :: rest, acc =>
    let cur := acc.getD cluster (⟨0, 0, 0⟩, 0)
    accumulate rest (acc.set cluster (add cur.1 p, cur.2 + 1))

/-- The update step of `kMeans`: zero the accumulators, scatter-accumulate,
then divide each sum by its count, a zero count being treated as 1. -/
def updateStep (data : List rgbf) (clusters : List ℕ) (k : ℕ) : List rgbf :=
  let acc := accumulate (data.zip clusters) (List.replicate k (⟨0, 0, 0⟩, 0))
  acc.map (fun sc => mul sc.1 (1 / (if sc.2 = 0 then 1 else (sc.2 : ℚ))))

/-- The iteration loop of `kMeans`: recompute centers from the current
assignment, reassign, and stop when no point changes cluster (`changes == 0`)
or the iteration budget runs out. -/
def kMeansGo (data : List rgbf) : List rgbf → List ℕ → ℕ → List rgbf
  | means, _, 0 => means
  | means, clusters, n + 1 =>
    let means' := updateStep data clusters means.length
    let clusters' := assignStep data means'
    if clusters' = clusters then means' else kMeansGo data means' clusters' n

/-- `kMeans` from the source: hue-wheel seeding, initial assignment, then the
capped assign/update loop. -/
def kMeans (data : List rgbf) (k : ℤ) (maxItr : ℤ) : List rgbf :=
  let means := initialMeans k
  let clusters := assignStep data means
  kMeansGo data means clusters maxItr.toNat

/-- The foreground-data filter inside `createPalette`: keep the samples whose
mask entry is true (the Go loop `if !fgMask[i] { continue }` plus the
channelwise copy, which is the identity). -/
def foregroundSamples (samples : List rgbf) (bgColor : rgbf) (option : Option') :
    List rgbf :=
  ((samples.zip (createForegroundMask bgColor samples option)).filter
    (fun pm => pm.2 = true)).map Prod.fst

/-- `createPalette` from the source.  `none` when `findBackgroundColor` panics
(empty sample list). -/
def createPalette (samples : List rgbf) (option : Option') :
    Option (List rgbf × rgbf) :=
  (findBackgroundColor samples 6).map (fun bgColor =>
    let data := foregroundSamples samples bgColor option
    let mean := kMeans data (option.numColors - 1) option.kmeansMaxIter
    (bgColor :: mean.map (fun c => (⟨round c.r, round c.g, round c.b⟩ : rgbf)), bgColor))

/-- `Shrink` from the source, on the abstract pixel buffer (`load` and the
final `image.RGBA` encoding are plumbing over the same row-major color list).
`shuffled` is the sampler's shuffle of `img`.  The Go function has no error
return at all; `none` models a runtime panic. -/
def Shrink (img : List rgbf) (option : Option') (shuffled : List rgbf) :
    Option (List rgbf) :=
  let samples := samplePixels shuffled option
  match createPalette samples option with
  | none => none
  | some (palette0, origBgColor) =>
    let palette := if option.saturate then saturatePalette palette0 else palette0
    let bgColor := if option.whiteBackground then (⟨255, 255, 255⟩ : rgbf) else origBgColor
    some (applyPalette img palette origBgColor bgColor option)

end Noteshrink

namespace Noteshrink

/-! ## The `closest` loop: first index at minimal squared distance -/

theorem closestAux_spec (p : rgbf) :
    ∀ (rest : List rgbf) (idx i : ℕ) (minimum : ℚ),
    (closestAux p rest idx minimum i = idx ∧
      ∀ j (hj : j < rest.length), minimum ≤ squareDistance p rest[j])
  ∨ (∃ j, ∃ (hj : j < rest.length),
      closestAux p rest idx minimum i = i + j ∧
      squareDistance p rest[j] < minimum ∧
      (∀ j' (hj' : j' < rest.length),
        squareDistance p rest[j] ≤ squareDistance p rest[j']) ∧
      (∀ j' (hj' : j' < rest.length), j' < j →
        squareDistance p rest[j] < squareDistance p rest[j'])) := by
  intro rest
  induction rest with
  | nil =>
    intro idx i minimum
    left
    exact ⟨rfl, fun j hj => by simp at hj⟩
  | cons m rest ih =>
    intro idx i minimum
    by_cases hd : squareDistance p m < minimum
    · have hstep : closestAux p (m :: rest) idx minimum i =
          closestAux p rest i (squareDistance p m) (i + 1) := by
        simp only [closestAux, if_pos hd]
      rcases ih i (i + 1) (squareDistance p m) with ⟨heq, hge⟩ | ⟨j, hj, heq, hlt, hle, hfirst⟩
      · right
        refine ⟨0, by simp, ?_, by simpa using hd, ?_, ?_⟩
        · rw [hstep, heq]; omega
        · intro j' hj'
          match j' with
          | 0 => simp
          | k + 1 =>
            simp only [List.getElem_cons_zero, List.getElem_cons_succ]
            exact hge k (by simpa using hj')
        · intro j' hj' hlt0
          omega
      · right
        refine ⟨j + 1, by simpa using hj, ?_, ?_, ?_, ?_⟩
        · rw [hstep, heq]; omega
        · simp only [List.getElem_cons_succ]
          exact hlt.trans hd
        · intro j' hj'
          match j' with
          | 0 =>
            simp only [List.getElem_cons_zero, List.getElem_cons_succ]
            exact hlt.le
          | k + 1 =>
            simp only [List.getElem_cons_succ]
            exact hle k (by simpa using hj')
        · intro j' hj' hj'j
          match j' with
          | 0 =>
            simp only [List.getElem_cons_zero, List.getElem_cons_succ]
            exact hlt
          | k + 1 =>
            simp only [List.getElem_cons_succ]
            exact hfirst k (by simpa using hj') (by omega)
    · have hstep : closestAux p (m :: rest) idx minimum i =
          closestAux p rest idx minimum (i + 1) := by
        simp only [closestAux, if_neg hd]
      rcases ih idx (i + 1) minimum with ⟨heq, hge⟩ | ⟨j, hj, heq, hlt, hle, hfirst⟩
      · left
        refine ⟨by rw [hstep, heq], ?_⟩
        intro j hj'
        match j with
        | 0 => simpa using not_lt.mp hd
        | k + 1 =>
          simp only [List.getElem_cons_succ]
          exact hge k (by simpa using hj')
      · right
        refine ⟨j + 1, by simpa using hj, ?_, ?_, ?_, ?_⟩
        · rw [hstep, heq]; omega
        · simpa using hlt
        · intro j' hj'
          match j' with
          | 0 =>
            simp only [List.getElem_cons_zero, List.getElem_cons_succ]
            exact hlt.le.trans (not_lt.mp hd)
          | k + 1 =>
            simp only [List.getElem_cons_succ]
            exact hle k (by simpa using hj')
        · intro j' hj' hj'j
          match j' with
          | 0 =>
            simp only [List.getElem_cons_zero, List.getElem_cons_succ]
            exact lt_of_lt_of_le hlt (not_lt.mp hd)
          | k + 1 =>
            simp only [List.getElem_cons_succ]
            exact hfirst k (by simpa using hj') (by omega)

theorem closest_lt_length (p : rgbf) (means : List rgbf) (h : means ≠ []) :
    closest p means < means.length := by
  match means with
  | m0 :: rest =>
    show closestAux p rest 0 (squareDistance p m0) 1 < (m0 :: rest).length
    rcases closestAux_spec p rest 0 1 (squareDistance p m0) with ⟨heq, -⟩ | ⟨j, hj, heq, -⟩
    · rw [heq]; simp
    · rw [heq]; simp only [List.length_cons]; omega

theorem closest_nearest (p : rgbf) (means : List rgbf) (h : means ≠ []) :
    ∀ j (hj : j < means.length),
      squareDistance p (means.getD (closest p means) ⟨0, 0, 0⟩) ≤
        squareDistance p means[j] := by
  match means with
  | m0 :: rest =>
    intro j hj
    have hc : closest p (m0 :: rest) = closestAux p rest 0 (squareDistance p m0) 1 := rfl
    rcases closestAux_spec p rest 0 1 (squareDistance p m0) with
      ⟨heq, hge⟩ | ⟨j0, hj0, heq, hlt, hle, -⟩
    · rw [hc, heq]
      match j with
      | 0 => simp
      | k + 1 =>
        simp only [List.getD_cons_zero, List.getElem_cons_succ]
        exact hge k (by simpa using hj)
    · rw [hc, heq]
      have hgd : (m0 :: rest).getD (1 + j0) ⟨0, 0, 0⟩ = rest[j0] := by
        rw [List.getD_eq_getElem _ _ (by simp only [List.length_cons]; omega)]
        have h1 : 1 + j0 = j0 + 1 := by omega
        simp [h1]
      rw [hgd]
      match j with
      | 0 => simpa using hlt.le
      | k + 1 =>
        simp only [List.getElem_cons_succ]
        exact hle k (by simpa using hj)

theorem closest_first (p : rgbf) (means : List rgbf) (h : means ≠ []) :
    ∀ j (hj : j < means.length),
      squareDistance p means[j] ≤
        squareDistance p (means.getD (closest p means) ⟨0, 0, 0⟩) →
      closest p means ≤ j := by
  match means with
  | m0 :: rest =>
    intro j hj htie
    have hc : closest p (m0 :: rest) = closestAux p rest 0 (squareDistance p m0) 1 := rfl
    rcases closestAux_spec p rest 0 1 (squareDistance p m0) with
      ⟨heq, hge⟩ | ⟨j0, hj0, heq, hlt, hle, hfirst⟩
    · rw [hc, heq]; omega
    · rw [hc, heq] at htie ⊢
      have hgd : (m0 :: rest).getD (1 + j0) ⟨0, 0, 0⟩ = rest[j0] := by
        rw [List.getD_eq_getElem _ _ (by simp only [List.length_cons]; omega)]
        have h1 : 1 + j0 = j0 + 1 := by omega
        simp [h1]
      rw [hgd] at htie
      by_contra hcon
      match j, hj with
      | 0, hj =>
        simp only [List.getElem_cons_zero] at htie
        exact absurd htie (not_le.mpr hlt)
      | k + 1, hj =>
        have hk : k < j0 := by omega
        have := hfirst k (by simpa using hj) hk
        simp only [List.getElem_cons_succ] at htie
        exact absurd htie (not_le.mpr this)

end Noteshrink

namespace Noteshrink

/-! ## Elementwise description of the mask and the remapper -/

theorem createForegroundMask_length (bgColor : rgbf) (samples : List rgbf)
    (option : Option') :
    (createForegroundMask bgColor samples option).length = samples.length := by
  simp [createForegroundMask]

theorem createForegroundMask_getD (bgColor : rgbf) (samples : List rgbf)
    (option : Option') (i : ℕ) (hi : i < samples.length) :
    (createForegroundMask bgColor samples option).getD i false =
      (decide (option.brightnessThreshold ≤
          absf ((rgbToHsv bgColor).2.2 - (rgbToHsv (samples.getD i ⟨0, 0, 0⟩)).2.2)) ||
       decide (option.saturationThreshold ≤
          absf ((rgbToHsv bgColor).2.1 - (rgbToHsv (samples.getD i ⟨0, 0, 0⟩)).2.1))) := by
  rw [List.getD_eq_getElem _ _ (by rw [createForegroundMask_length]; exact hi),
      List.getD_eq_getElem _ _ hi]
  simp [createForegroundMask]

theorem applyPalette_length (img palette : List rgbf) (origBgColor bgColor : rgbf)
    (option : Option') :
    (applyPalette img palette origBgColor bgColor option).length = img.length := by
  simp [applyPalette, createForegroundMask_length]

theorem applyPalette_getD (img palette : List rgbf) (origBgColor bgColor : rgbf)
    (option : Option') (i : ℕ) (hi : i < img.length) :
    (applyPalette img palette origBgColor bgColor option).getD i ⟨0, 0, 0⟩ =
      (if (createForegroundMask origBgColor img option).getD i false = false then bgColor
       else if closest (img.getD i ⟨0, 0, 0⟩) palette = 0 then bgColor
       else palette.getD (closest (img.getD i ⟨0, 0, 0⟩) palette) ⟨0, 0, 0⟩) := by
  rw [List.getD_eq_getElem _ _ (by rw [applyPalette_length]; exact hi),
      List.getD_eq_getElem _ _ (by rw [createForegroundMask_length]; exact hi),
      List.getD_eq_getElem _ _ hi]
  simp only [applyPalette, List.getElem_zipWith]

/-- C1: on the full image, `applyPalette` classifies every pixel against the
original background color (foreground iff the value difference reaches
`brightnessThreshold` or the saturation difference reaches
`saturationThreshold`); background pixels render as the rendered background
color; foreground pixels render as the palette entry nearest by squared RGB
distance with ties to the lowest index, except that nearest index 0 renders
as the rendered background color; and the output has exactly one color per
input pixel. -/
theorem applyPalette_full_image_rule (img palette : List rgbf) (origBgColor bgColor : rgbf)
    (option : Option') (hpal : palette ≠ []) :
    (applyPalette img palette origBgColor bgColor option).length = img.length ∧
    (∀ i (hi : i < img.length),
      (applyPalette img palette origBgColor bgColor option).getD i ⟨0, 0, 0⟩ =
        if option.brightnessThreshold ≤
              |(rgbToHsv origBgColor).2.2 - (rgbToHsv (img.getD i ⟨0, 0, 0⟩)).2.2| ∨
            option.saturationThreshold ≤
              |(rgbToHsv origBgColor).2.1 - (rgbToHsv (img.getD i ⟨0, 0, 0⟩)).2.1|
        then
          (if closest (img.getD i ⟨0, 0, 0⟩) palette = 0 then bgColor
           else palette.getD (closest (img.getD i ⟨0, 0, 0⟩) palette) ⟨0, 0, 0⟩)
        else bgColor) ∧
    (∀ p : rgbf,
      closest p palette < palette.length ∧
      (∀ j (hj : j < palette.length),
        squareDistance p (palette.getD (closest p palette) ⟨0, 0, 0⟩) ≤
          squareDistance p palette[j]) ∧
      (∀ j (hj : j < palette.length),
        squareDistance p palette[j] ≤
          squareDistance p (palette.getD (closest p palette) ⟨0, 0, 0⟩) →
        closest p palette ≤ j)) := by
  refine ⟨applyPalette_length img palette origBgColor bgColor option, ?_, ?_⟩
  · intro i hi
    rw [applyPalette_getD img palette origBgColor bgColor option i hi,
        createForegroundMask_getD origBgColor img option i hi]
    simp only [absf_eq_abs]
    by_cases hfg : option.brightnessThreshold ≤
        |(rgbToHsv origBgColor).2.2 - (rgbToHsv (img.getD i ⟨0, 0, 0⟩)).2.2| ∨
        option.saturationThreshold ≤
        |(rgbToHsv origBgColor).2.1 - (rgbToHsv (img.getD i ⟨0, 0, 0⟩)).2.1|
    · rw [if_neg (by simp only [Bool.or_eq_false_iff, decide_eq_false_iff_not]; tauto),
          if_pos hfg]
    · rw [if_pos (by simp only [Bool.or_eq_false_iff, decide_eq_false_iff_not]; tauto),
          if_neg hfg]
  · intro p
    exact ⟨closest_lt_length p palette hpal, closest_nearest p palette hpal,
      closest_first p palette hpal⟩

theorem applyPalette_full_image_rule_witness :
    ([(⟨250, 250, 250⟩ : rgbf), ⟨10, 10, 10⟩] ≠ ([] : List rgbf)) ∧
    (applyPalette [⟨0, 0, 0⟩] [⟨250, 250, 250⟩, ⟨10, 10, 10⟩] ⟨250, 250, 250⟩
        ⟨255, 255, 255⟩ MakeDefaultOption).length = 1 :=
  ⟨by decide,
   (applyPalette_full_image_rule [⟨0, 0, 0⟩] [⟨250, 250, 250⟩, ⟨10, 10, 10⟩]
      ⟨250, 250, 250⟩ ⟨255, 255, 255⟩ MakeDefaultOption (by decide)).1⟩

/-- C10: every output element of `applyPalette` is the rendered background
color or a palette entry of index at least 1, so the output has at most
`palette.length` (that is, `numColors`) distinct colors. -/
theorem applyPalette_output_in_palette (img palette : List rgbf)
    (origBgColor bgColor : rgbf) (option : Option') (hpal : palette ≠ []) :
    (∀ c ∈ applyPalette img palette origBgColor bgColor option,
      c = bgColor ∨ ∃ i, 1 ≤ i ∧ ∃ (hi : i < palette.length), c = palette[i]) ∧
    (applyPalette img palette origBgColor bgColor option).toFinset.card ≤
      palette.length := by
  have hmem : ∀ c ∈ applyPalette img palette origBgColor bgColor option,
      c = bgColor ∨ ∃ i, 1 ≤ i ∧ ∃ (hi : i < palette.length), c = palette[i] := by
    intro c hc
    rw [List.mem_iff_getElem] at hc
    obtain ⟨n, hn, hcn⟩ := hc
    have hn' : n < img.length := by
      rw [applyPalette_length] at hn; exact hn
    have hval := applyPalette_getD img palette origBgColor bgColor option n hn'
    rw [List.getD_eq_getElem _ _ (by rw [applyPalette_length]; exact hn'), hcn] at hval
    rw [hval]
    split_ifs with h1 h2
    · left; rfl
    · left; rfl
    · right
      refine ⟨closest (img.getD n ⟨0, 0, 0⟩) palette, by omega,
        closest_lt_length _ _ hpal, ?_⟩
      rw [List.getD_eq_getElem _ _ (closest_lt_length _ _ hpal)]
  refine ⟨hmem, ?_⟩
  have hsub : (applyPalette img palette origBgColor bgColor option).toFinset ⊆
      insert bgColor (palette.drop 1).toFinset := by
    intro c hc
    rw [List.mem_toFinset] at hc
    rcases hmem c hc with rfl | ⟨i, h1, hi, rfl⟩
    · exact Finset.mem_insert_self _ _
    · apply Finset.mem_insert_of_mem
      rw [List.mem_toFinset, List.mem_iff_getElem]
      refine ⟨i - 1, by rw [List.length_drop]; omega, ?_⟩
      rw [List.getElem_drop]
      congr 1
      omega
  have hpos : 0 < palette.length := List.length_pos.mpr hpal
  calc (applyPalette img palette origBgColor bgColor option).toFinset.card
      ≤ (insert bgColor (palette.drop 1).toFinset).card := Finset.card_le_card hsub
    _ ≤ (palette.drop 1).toFinset.card + 1 := Finset.card_insert_le _ _
    _ ≤ (palette.drop 1).length + 1 := by
        have := (palette.drop 1).toFinset_card_le
        omega
    _ ≤ palette.length := by rw [List.length_drop]; omega

theorem applyPalette_output_in_palette_witness :
    ([(⟨255, 255, 255⟩ : rgbf), ⟨0, 0, 0⟩] ≠ ([] : List rgbf)) ∧
    (applyPalette [⟨0, 0, 0⟩] [⟨255, 255, 255⟩, ⟨0, 0, 0⟩] ⟨255, 255, 255⟩
        ⟨255, 255, 255⟩ MakeDefaultOption).toFinset.card ≤ 2 :=
  ⟨by decide,
   (applyPalette_output_in_palette [⟨0, 0, 0⟩] [⟨255, 255, 255⟩, ⟨0, 0, 0⟩]
      ⟨255, 255, 255⟩ ⟨255, 255, 255⟩ MakeDefaultOption (by decide)).2⟩

end Noteshrink

namespace Noteshrink

/-! ## Background detection, sampler, degenerate saturation, boundary checks -/

/-- C2: evaluation of `findBackgroundColor` at a sample list whose most
frequent quantized color is the quantized `(10,10,10)` (three occurrences
versus two): the code returns the quantized `(200,200,200)` instead, because
the counting loop starts at index 1 with an empty count map and `maxcount`
preset to 1, so the first sample's own occurrence is never counted. -/
theorem findBackgroundColor_miscounts_first_sample :
    findBackgroundColor
        [⟨10, 10, 10⟩, ⟨200, 200, 200⟩, ⟨200, 200, 200⟩, ⟨10, 10, 10⟩, ⟨10, 10, 10⟩] 6 =
      some ⟨202, 202, 202⟩ ∧
    (quantize [⟨10, 10, 10⟩, ⟨200, 200, 200⟩, ⟨200, 200, 200⟩,
        ⟨10, 10, 10⟩, ⟨10, 10, 10⟩] 6).count ⟨10, 10, 10⟩ = 3 ∧
    (quantize [⟨10, 10, 10⟩, ⟨200, 200, 200⟩, ⟨200, 200, 200⟩,
        ⟨10, 10, 10⟩, ⟨10, 10, 10⟩] 6).count ⟨202, 202, 202⟩ = 2 := by
  exact ⟨by decide, by decide, by decide⟩

/-- C4: evaluation of `saturatePalette` at a palette whose saturation range is
degenerate (a single fully saturated red entry, so max = min = 1).  The code
does not skip the stretch: it divides by the zero saturation range and renders
the entry as white, changing the palette. -/
theorem saturatePalette_degenerate_changes_palette :
    saturatePalette [⟨255, 0, 0⟩] = [⟨255, 255, 255⟩] ∧
    saturatePalette [⟨255, 0, 0⟩] ≠ [⟨255, 0, 0⟩] := by
  have h1 : saturatePalette [⟨255, 0, 0⟩] = [⟨255, 255, 255⟩] := by
    norm_num [saturatePalette, rgbToHsv, hsvToRgb, maxf, minf, truncQ]
  refine ⟨h1, ?_⟩
  rw [h1]
  decide

/-- C5: `Shrink` performs no configuration validation.  On an empty image it
reaches `findBackgroundColor` on an empty sample list and panics (`none`), and
with `sampleFraction = 0` on a nonempty image it does the same; no descriptive
configuration error is produced (the Go function has no error return type at
all). -/
theorem shrink_no_boundary_validation :
    Shrink [] MakeDefaultOption [] = none ∧
    Shrink [⟨10, 10, 10⟩] { MakeDefaultOption with sampleFraction := 0 }
        [⟨10, 10, 10⟩] = none := by
  constructor
  · simp [Shrink, samplePixels, createPalette, findBackgroundColor, quantize]
  · norm_num [Shrink, samplePixels, truncQ, createPalette, findBackgroundColor, quantize]

/-- C7: `samplePixels` returns exactly `floor(N * f)` colors whenever the
sample fraction `f` lies in `(0, 1]`, where `N` is the pixel count and
`shuffled` is the sampler's shuffle (a permutation) of the image. -/
theorem samplePixels_length (img shuffled : List rgbf) (option : Option')
    (hperm : shuffled.Perm img) (hf0 : 0 < option.sampleFraction)
    (hf1 : option.sampleFraction ≤ 1) :
    ((samplePixels shuffled option).length : ℤ) =
      ⌊(img.length : ℚ) * option.sampleFraction⌋ := by
  have hlen : shuffled.length = img.length := hperm.length_eq
  have hnn : 0 ≤ (img.length : ℚ) * option.sampleFraction := by positivity
  have hfl0 : 0 ≤ ⌊(img.length : ℚ) * option.sampleFraction⌋ := Int.floor_nonneg.mpr hnn
  have hle : ⌊(img.length : ℚ) * option.sampleFraction⌋ ≤ (img.length : ℤ) := by
    have hmul : (img.length : ℚ) * option.sampleFraction ≤ (img.length : ℚ) := by
      nlinarith
    calc ⌊(img.length : ℚ) * option.sampleFraction⌋ ≤ ⌊(img.length : ℚ)⌋ :=
          Int.floor_le_floor hmul
      _ = (img.length : ℤ) := by
          rw [Int.floor_natCast]
  unfold samplePixels
  rw [List.length_take, hlen, truncQ_of_nonneg _ hnn]
  omega

theorem samplePixels_length_witness :
    ([(⟨1, 1, 1⟩ : rgbf), ⟨2, 2, 2⟩, ⟨3, 3, 3⟩, ⟨4, 4, 4⟩].Perm
        [⟨1, 1, 1⟩, ⟨2, 2, 2⟩, ⟨3, 3, 3⟩, ⟨4, 4, 4⟩] ∧
      (0 : ℚ) < 1/2 ∧ (1/2 : ℚ) ≤ 1) ∧
    ((samplePixels [⟨1, 1, 1⟩, ⟨2, 2, 2⟩, ⟨3, 3, 3⟩, ⟨4, 4, 4⟩]
        { MakeDefaultOption with sampleFraction := 1/2 }).length : ℤ) =
      ⌊(([(⟨1, 1, 1⟩ : rgbf), ⟨2, 2, 2⟩, ⟨3, 3, 3⟩, ⟨4, 4, 4⟩].length : ℚ)) * (1/2 : ℚ)⌋ :=
  ⟨⟨List.Perm.refl _, by norm_num, by norm_num⟩,
   samplePixels_length [⟨1, 1, 1⟩, ⟨2, 2, 2⟩, ⟨3, 3, 3⟩, ⟨4, 4, 4⟩]
     [⟨1, 1, 1⟩, ⟨2, 2, 2⟩, ⟨3, 3, 3⟩, ⟨4, 4, 4⟩]
     { MakeDefaultOption with sampleFraction := 1/2 }
     (List.Perm.refl _) (by norm_num) (by norm_num)⟩

/-- C9: for `k ≥ 2`, the initial k-means centers are
`hsvToRgb (i/(k-1)) 1 1` for `i = 0 .. k-1`, and the last seed has hue
exactly 1: `h*6 = 6` matches none of the six sector cases of `hsvToRgb`, so
the default branch keeps all channels at full value and the last center is
`(255,255,255)` rather than a fully saturated hue-wheel color. -/
theorem initialMeans_last_seed_white (k : ℤ) (hk : 2 ≤ k) :
    (initialMeans k).length = k.toNat ∧
    (∀ i (hi : i < k.toNat),
      (initialMeans k).getD i ⟨0, 0, 0⟩ = hsvToRgb ((i : ℚ) / ((k : ℚ) - 1)) 1 1) ∧
    hsvToRgb 1 1 1 = ⟨255, 255, 255⟩ ∧
    (initialMeans k).getD (k.toNat - 1) ⟨0, 0, 0⟩ = ⟨255, 255, 255⟩ := by
  have hlen : (initialMeans k).length = k.toNat := by
    rw [initialMeans, List.length_map, List.length_range]
  have hget : ∀ i (hi : i < k.toNat),
      (initialMeans k).getD i ⟨0, 0, 0⟩ = hsvToRgb ((i : ℚ) / ((k : ℚ) - 1)) 1 1 := by
    intro i hi
    rw [List.getD_eq_getElem _ _ (by rw [hlen]; exact hi)]
    simp only [initialMeans, List.getElem_map, List.getElem_range]
  have hwhite : hsvToRgb 1 1 1 = ⟨255, 255, 255⟩ := by
    norm_num [hsvToRgb, truncQ]
  refine ⟨hlen, hget, hwhite, ?_⟩
  have hlast : k.toNat - 1 < k.toNat := by omega
  rw [hget _ hlast]
  have hne : (k : ℚ) - 1 ≠ 0 := by
    have h2 : (2 : ℚ) ≤ (k : ℚ) := by exact_mod_cast hk
    linarith
  have hcast : ((k.toNat - 1 : ℕ) : ℚ) = (k : ℚ) - 1 := by
    have h3 : ((k.toNat - 1 : ℕ) : ℤ) = k - 1 := by omega
    exact_mod_cast h3
  rw [hcast, div_self hne, hwhite]

theorem initialMeans_last_seed_white_witness :
    (2 : ℤ) ≤ 8 ∧
    (initialMeans 8).getD ((8 : ℤ).toNat - 1) ⟨0, 0, 0⟩ = ⟨255, 255, 255⟩ :=
  ⟨by norm_num, (initialMeans_last_seed_white 8 (by norm_num)).2.2.2⟩

end Noteshrink

namespace Noteshrink

/-! ## The k-means update step and palette construction -/

theorem accumulate_length (pcs : List (rgbf × ℕ)) :
    ∀ acc : List (rgbf × ℕ), (accumulate pcs acc).length = acc.length := by
  induction pcs with
  | nil => intro acc; rfl
  | cons pc rest ih =>
    intro acc
    obtain ⟨p, c⟩ := pc
    simp only [accumulate]
    rw [ih, List.length_set]

theorem accumulate_getD (pcs : List (rgbf × ℕ)) :
    ∀ (acc : List (rgbf × ℕ)) (i : ℕ), i < acc.length →
      (accumulate pcs acc).getD i (⟨0, 0, 0⟩, 0) =
        (((pcs.filter (fun pc => pc.2 = i)).map Prod.fst).foldl add
            (acc.getD i (⟨0, 0, 0⟩, 0)).1,
         (acc.getD i (⟨0, 0, 0⟩, 0)).2 +
            (pcs.filter (fun pc => pc.2 = i)).length) := by
  induction pcs with
  | nil => intro acc i hi; simp [accumulate]
  | cons pc rest ih =>
    intro acc i hi
    obtain ⟨p, c⟩ := pc
    simp only [accumulate]
    have hset : i < (acc.set c (add (acc.getD c (⟨0, 0, 0⟩, 0)).1 p,
        (acc.getD c (⟨0, 0, 0⟩, 0)).2 + 1)).length := by
      rw [List.length_set]; exact hi
    rw [ih _ i hset]
    by_cases hc : c = i
    · subst hc
      have hgd : (acc.set c (add (acc.getD c (⟨0, 0, 0⟩, 0)).1 p,
          (acc.getD c (⟨0, 0, 0⟩, 0)).2 + 1)).getD c (⟨0, 0, 0⟩, 0) =
          (add (acc.getD c (⟨0, 0, 0⟩, 0)).1 p, (acc.getD c (⟨0, 0, 0⟩, 0)).2 + 1) := by
        rw [List.getD_eq_getElem _ _ hset]
        exact List.getElem_set_self hset
      rw [hgd]
      have hfil : ((p, c) :: rest).filter (fun pc => pc.2 = c) =
          (p, c) :: rest.filter (fun pc => pc.2 = c) := by
        simp [List.filter_cons]
      rw [hfil]
      simp only [List.map_cons, List.foldl_cons, List.length_cons]
      refine Prod.ext rfl ?_
      simp only
      omega
    · have hgd : (acc.set c (add (acc.getD c (⟨0, 0, 0⟩, 0)).1 p,
          (acc.getD c (⟨0, 0, 0⟩, 0)).2 + 1)).getD i (⟨0, 0, 0⟩, 0) =
          acc.getD i (⟨0, 0, 0⟩, 0) := by
        rw [List.getD_eq_getElem _ _ hset, List.getD_eq_getElem _ _ hi]
        exact List.getElem_set_ne hc _
      rw [hgd]
      have hfil : ((p, c) :: rest).filter (fun pc => pc.2 = i) =
          rest.filter (fun pc => pc.2 = i) := by
        simp [List.filter_cons, hc]
      rw [hfil]

/-- C8: in every k-means update step, a center whose cluster has at least one
assigned point becomes the componentwise mean of its assigned points (sum
scaled by the reciprocal of the member count), while a cluster with zero
members has its count treated as 1, so its center is left at the zero vector
instead of dividing by zero. -/
theorem kmeans_update_step (data : List rgbf) (clusters : List ℕ) (k : ℕ)
    (hrange : ∀ pc ∈ data.zip clusters, pc.2 < k) :
    ∀ i (hi : i < k),
      (updateStep data clusters k).getD i ⟨0, 0, 0⟩ =
        (if ((data.zip clusters).filter (fun pc => pc.2 = i)).map Prod.fst = [] then
          (⟨0, 0, 0⟩ : rgbf)
        else
          mul ((((data.zip clusters).filter (fun pc => pc.2 = i)).map Prod.fst).foldl
              add ⟨0, 0, 0⟩)
            (1 / ((((data.zip clusters).filter (fun pc => pc.2 = i)).map
                Prod.fst).length : ℚ))) := by
  intro i hi
  have hrep : i < (List.replicate k ((⟨0, 0, 0⟩ : rgbf), 0)).length := by
    rw [List.length_replicate]; exact hi
  have hacl : i < (accumulate (data.zip clusters)
      (List.replicate k ((⟨0, 0, 0⟩ : rgbf), 0))).length := by
    rw [accumulate_length]; exact hrep
  have hrepd : (List.replicate k ((⟨0, 0, 0⟩ : rgbf), 0)).getD i (⟨0, 0, 0⟩, 0) =
      (⟨0, 0, 0⟩, 0) := by
    rw [List.getD_eq_getElem _ _ hrep, List.getElem_replicate]
  have hacc := accumulate_getD (data.zip clusters)
    (List.replicate k ((⟨0, 0, 0⟩ : rgbf), 0)) i hrep
  rw [hrepd] at hacc
  unfold updateStep
  have hmap : i < ((accumulate (data.zip clusters)
      (List.replicate k ((⟨0, 0, 0⟩ : rgbf), 0))).map
        (fun sc => mul sc.1 (1 / (if sc.2 = 0 then 1 else (sc.2 : ℚ))))).length := by
    rw [List.length_map]; exact hacl
  rw [List.getD_eq_getElem _ _ hmap, List.getElem_map,
      ← List.getD_eq_getElem _ (⟨0, 0, 0⟩, 0) hacl, hacc]
  simp only [Nat.zero_add, List.length_map]
  by_cases hz : ((data.zip clusters).filter (fun pc => pc.2 = i)).length = 0
  · rw [List.length_eq_zero] at hz
    rw [hz]
    simp [mul]
  · have hne : ((data.zip clusters).filter (fun pc => pc.2 = i)).map Prod.fst ≠ [] := by
      intro hcon
      exact hz (by simpa using congrArg List.length hcon)
    rw [if_neg (by simpa using hz), if_neg hne]

theorem kmeans_update_step_witness :
    (∀ pc ∈ ([(⟨1, 2, 3⟩ : rgbf), ⟨5, 6, 7⟩].zip [0, 0]), pc.2 < 2) ∧
    (updateStep [⟨1, 2, 3⟩, ⟨5, 6, 7⟩] [0, 0] 2).getD 1 ⟨0, 0, 0⟩ = ⟨0, 0, 0⟩ := by
  refine ⟨by decide, ?_⟩
  have h := kmeans_update_step [⟨1, 2, 3⟩, ⟨5, 6, 7⟩] [0, 0] 2 (by decide) 1 (by norm_num)
  simpa using h

theorem updateStep_length (data : List rgbf) (clusters : List ℕ) (k : ℕ) :
    (updateStep data clusters k).length = k := by
  unfold updateStep
  rw [List.length_map, accumulate_length, List.length_replicate]

theorem kMeansGo_length (data : List rgbf) :
    ∀ (fuel : ℕ) (means : List rgbf) (clusters : List ℕ),
      (kMeansGo data means clusters fuel).length = means.length := by
  intro fuel
  induction fuel with
  | zero => intro means clusters; rfl
  | succ n ih =>
    intro means clusters
    simp only [kMeansGo]
    split
    · exact updateStep_length data clusters means.length
    · rw [ih]
      exact updateStep_length data clusters means.length

theorem kMeans_length (data : List rgbf) (k maxItr : ℤ) :
    (kMeans data k maxItr).length = k.toNat := by
  unfold kMeans
  rw [kMeansGo_length, initialMeans, List.length_map, List.length_range]

/-- C3 (amended to non-empty sample lists): for every non-empty sample list
and configuration with `numColors ≥ 2`, `createPalette` returns a palette of
length exactly `numColors` whose entry 0 is the detected background color and
whose entries `1 .. numColors-1` are the `numColors-1` k-means cluster centers
with each channel rounded, in seeding order. -/
theorem createPalette_spec (samples : List rgbf) (option : Option')
    (hne : samples ≠ []) (hk : 2 ≤ option.numColors) :
    ∃ pal bg, createPalette samples option = some (pal, bg) ∧
      (pal.length : ℤ) = option.numColors ∧
      pal.getD 0 ⟨0, 0, 0⟩ = bg ∧
      (∀ i (hi : i + 1 < pal.length),
        pal.getD (i + 1) ⟨0, 0, 0⟩ =
          (⟨round ((kMeans (foregroundSamples samples bg option)
                (option.numColors - 1) option.kmeansMaxIter).getD i ⟨0, 0, 0⟩).r,
            round ((kMeans (foregroundSamples samples bg option)
                (option.numColors - 1) option.kmeansMaxIter).getD i ⟨0, 0, 0⟩).g,
            round ((kMeans (foregroundSamples samples bg option)
                (option.numColors - 1) option.kmeansMaxIter).getD i ⟨0, 0, 0⟩).b⟩ :
            rgbf)) := by
  match samples, hne with
  | s :: rest, _ =>
    set bg0 : rgbf := bgGo (quantize rest 6)
      (fun _ => 0) 1 ((quantize [s] 6).getD 0 ⟨0, 0, 0⟩) with hbg0
    have hfind : findBackgroundColor (s :: rest) 6 = some bg0 := by
      simp [findBackgroundColor, quantize, hbg0]
    set mean := kMeans (foregroundSamples (s :: rest) bg0 option)
      (option.numColors - 1) option.kmeansMaxIter with hmean
    refine ⟨bg0 :: mean.map (fun c => (⟨round c.r, round c.g, round c.b⟩ : rgbf)),
      bg0, ?_, ?_, ?_, ?_⟩
    · rw [createPalette, hfind]
      rfl
    · have hml : mean.length = (option.numColors - 1).toNat := kMeans_length _ _ _
      simp only [List.length_cons, List.length_map, hml]
      omega
    · rfl
    · intro i hi
      have hil : i < mean.length := by
        simp only [List.length_cons, List.length_map] at hi
        omega
      rw [List.getD_cons_succ,
          List.getD_eq_getElem _ _ (by rw [List.length_map]; exact hil),
          List.getElem_map,
          List.getD_eq_getElem _ _ hil]

theorem createPalette_empty_samples_panics :
    createPalette [] MakeDefaultOption = none ∧ 2 ≤ MakeDefaultOption.numColors :=
  ⟨rfl, by norm_num [MakeDefaultOption]⟩

theorem createPalette_spec_witness :
    ∃ pal bg, createPalette [(⟨10, 10, 10⟩ : rgbf)] MakeDefaultOption = some (pal, bg) ∧
      (pal.length : ℤ) = MakeDefaultOption.numColors ∧
      pal.getD 0 ⟨0, 0, 0⟩ = bg ∧
      (∀ i (hi : i + 1 < pal.length),
        pal.getD (i + 1) ⟨0, 0, 0⟩ =
          (⟨round ((kMeans (foregroundSamples [⟨10, 10, 10⟩] bg MakeDefaultOption)
                (MakeDefaultOption.numColors - 1) MakeDefaultOption.kmeansMaxIter).getD
                  i ⟨0, 0, 0⟩).r,
            round ((kMeans (foregroundSamples [⟨10, 10, 10⟩] bg MakeDefaultOption)
                (MakeDefaultOption.numColors - 1) MakeDefaultOption.kmeansMaxIter).getD
                  i ⟨0, 0, 0⟩).g,
            round ((kMeans (foregroundSamples [⟨10, 10, 10⟩] bg MakeDefaultOption)
                (MakeDefaultOption.numColors - 1) MakeDefaultOption.kmeansMaxIter).getD
                  i ⟨0, 0, 0⟩).b⟩ : rgbf)) :=
  createPalette_spec [⟨10, 10, 10⟩] MakeDefaultOption (by decide)
    (by norm_num [MakeDefaultOption])

end Noteshrink

namespace Noteshrink

/-! ## The HSV round trip -/

theorem truncQ_eq_of_bounds (n : ℤ) (q : ℚ) (hn : 0 ≤ n) (h0 : (n : ℚ) ≤ q)
    (h1 : q < (n : ℚ) + 1) : truncQ q = n := by
  have hq0 : 0 ≤ q := le_trans (by exact_mod_cast hn) h0
  rw [truncQ_of_nonneg _ hq0]
  exact Int.floor_eq_iff.mpr ⟨h0, h1⟩

theorem hsvToRgb_sector0 (h s v : ℚ) (hs : 0 < s) (hl : 0 ≤ h * 6) (hu : h * 6 < 1) :
    hsvToRgb h s v =
      ⟨v * 255, v * (1 - s * (1 - h * 6)) * 255, v * (1 - s) * 255⟩ := by
  have hi : truncQ (h * 6) = 0 :=
    truncQ_eq_of_bounds 0 _ le_rfl (by simpa using hl) (by norm_num [hu])
  unfold hsvToRgb
  rw [if_pos hs]
  simp only [hi]
  norm_num

theorem hsvToRgb_sector1 (h s v : ℚ) (hs : 0 < s) (hl : 1 ≤ h * 6) (hu : h * 6 < 2) :
    hsvToRgb h s v =
      ⟨v * (1 - s * (h * 6 - 1)) * 255, v * 255, v * (1 - s) * 255⟩ := by
  have hi : truncQ (h * 6) = 1 :=
    truncQ_eq_of_bounds 1 _ (by norm_num) (by exact_mod_cast hl) (by norm_num [hu])
  unfold hsvToRgb
  rw [if_pos hs]
  simp only [hi]
  norm_num

theorem hsvToRgb_sector2 (h s v : ℚ) (hs : 0 < s) (hl : 2 ≤ h * 6) (hu : h * 6 < 3) :
    hsvToRgb h s v =
      ⟨v * (1 - s) * 255, v * 255, v * (1 - s * (1 - (h * 6 - 2))) * 255⟩ := by
  have hi : truncQ (h * 6) = 2 :=
    truncQ_eq_of_bounds 2 _ (by norm_num) (by exact_mod_cast hl) (by norm_num [hu])
  unfold hsvToRgb
  rw [if_pos hs]
  simp only [hi]
  norm_num

theorem hsvToRgb_sector3 (h s v : ℚ) (hs : 0 < s) (hl : 3 ≤ h * 6) (hu : h * 6 < 4) :
    hsvToRgb h s v =
      ⟨v * (1 - s) * 255, v * (1 - s * (h * 6 - 3)) * 255, v * 255⟩ := by
  have hi : truncQ (h * 6) = 3 :=
    truncQ_eq_of_bounds 3 _ (by norm_num) (by exact_mod_cast hl) (by norm_num [hu])
  unfold hsvToRgb
  rw [if_pos hs]
  simp only [hi]
  norm_num

theorem hsvToRgb_sector4 (h s v : ℚ) (hs : 0 < s) (hl : 4 ≤ h * 6) (hu : h * 6 < 5) :
    hsvToRgb h s v =
      ⟨v * (1 - s * (1 - (h * 6 - 4))) * 255, v * (1 - s) * 255, v * 255⟩ := by
  have hi : truncQ (h * 6) = 4 :=
    truncQ_eq_of_bounds 4 _ (by norm_num) (by exact_mod_cast hl) (by norm_num [hu])
  unfold hsvToRgb
  rw [if_pos hs]
  simp only [hi]
  norm_num

theorem hsvToRgb_sector5 (h s v : ℚ) (hs : 0 < s) (hl : 5 ≤ h * 6) (hu : h * 6 < 6) :
    hsvToRgb h s v =
      ⟨v * 255, v * (1 - s) * 255, v * (1 - s * (h * 6 - 5)) * 255⟩ := by
  have hi : truncQ (h * 6) = 5 :=
    truncQ_eq_of_bounds 5 _ (by norm_num) (by exact_mod_cast hl) (by norm_num [hu])
  unfold hsvToRgb
  rw [if_pos hs]
  simp only [hi]
  norm_num

end Noteshrink

namespace Noteshrink

set_option maxHeartbeats 1000000 in
/-- Exactness of the HSV round trip over the rational embedding: for
nonnegative channels the conversion back and forth is the identity. -/
theorem roundtrip_core (pr pg pb : ℚ) (hpr : 0 ≤ pr) (hpg : 0 ≤ pg) (hpb : 0 ≤ pb) :
    hsvToRgb (rgbToHsv ⟨pr, pg, pb⟩).1 (rgbToHsv ⟨pr, pg, pb⟩).2.1
      (rgbToHsv ⟨pr, pg, pb⟩).2.2 = ⟨pr, pg, pb⟩ := by
  set r := pr / 255 with hr_def
  set g := pg / 255 with hg_def
  set b := pb / 255 with hb_def
  set mx := maxf (maxf r g) b with hmx_def
  set mn := minf (minf r g) b with hmn_def
  have hproj1 : (rgbToHsv ⟨pr, pg, pb⟩).2.2 = mx := rfl
  have hproj2 : (rgbToHsv ⟨pr, pg, pb⟩).2.1 =
      (if 0 < mx then (mx - mn) / mx else mx - mn) := rfl
  have hproj3 : (rgbToHsv ⟨pr, pg, pb⟩).1 =
      (if 0 < mx - mn then
        (if mx = r then
          (if (g - b) / (mx - mn) < 0 then (g - b) / (mx - mn) + 6
           else (g - b) / (mx - mn))
         else if mx = g then 2 + (b - r) / (mx - mn)
         else 4 + (r - g) / (mx - mn))
       else mx - mn) / 6 := rfl
  rw [hproj1, hproj2, hproj3]
  have h255 : (255 : ℚ) ≠ 0 := by norm_num
  have hr255 : r * 255 = pr := by rw [hr_def]; exact div_mul_cancel₀ _ h255
  have hg255 : g * 255 = pg := by rw [hg_def]; exact div_mul_cancel₀ _ h255
  have hb255 : b * 255 = pb := by rw [hb_def]; exact div_mul_cancel₀ _ h255
  have hr0 : 0 ≤ r := by rw [hr_def]; positivity
  have hg0 : 0 ≤ g := by rw [hg_def]; positivity
  have hb0 : 0 ≤ b := by rw [hb_def]; positivity
  have hmaxeq : mx = max (max r g) b := by rw [hmx_def, maxf_eq_max, maxf_eq_max]
  have hmineq : mn = min (min r g) b := by rw [hmn_def, minf_eq_min, minf_eq_min]
  have hrle : r ≤ mx := by
    rw [hmaxeq]; exact le_trans (le_max_left r g) (le_max_left _ b)
  have hgle : g ≤ mx := by
    rw [hmaxeq]; exact le_trans (le_max_right r g) (le_max_left _ b)
  have hble : b ≤ mx := by rw [hmaxeq]; exact le_max_right _ b
  have hmnr : mn ≤ r := by
    rw [hmineq]; exact le_trans (min_le_left _ b) (min_le_left r g)
  have hmng : mn ≤ g := by
    rw [hmineq]; exact le_trans (min_le_left _ b) (min_le_right r g)
  have hmnb : mn ≤ b := by rw [hmineq]; exact min_le_right _ b
  have hmn0 : 0 ≤ mn := by rw [hmineq]; exact le_min (le_min hr0 hg0) hb0
  have hmnmx : mn ≤ mx := le_trans hmnr hrle
  by_cases hd : 0 < mx - mn
  · -- saturated case
    have hmx0 : 0 < mx := by linarith
    rw [if_pos hd, if_pos hmx0]
    have hs : 0 < (mx - mn) / mx := div_pos (by linarith) hmx0
    have hdne : mx - mn ≠ 0 := by linarith
    have hmxne : mx ≠ 0 := ne_of_gt hmx0
    by_cases hxr : mx = r
    · rw [if_pos hxr]
      have hgr : g ≤ r := by rw [← hxr]; exact hgle
      have hbr : b ≤ r := by rw [← hxr]; exact hble
      have hrne : r ≠ 0 := by rw [← hxr]; exact hmxne
      by_cases ht : (g - b) / (mx - mn) < 0
      · -- g < b: sector 5
        rw [if_pos ht]
        have hgb : g < b := by
          by_contra hcon
          exact absurd (div_nonneg (by linarith) (by linarith)) (not_le.mpr ht)
        have hmneqg : mn = g := by
          rw [hmineq, min_eq_right hgr]; exact min_eq_left hgb.le
        have htm1 : -1 ≤ (g - b) / (mx - mn) := by
          rw [le_div_iff (by linarith : (0 : ℚ) < mx - mn)]
          linarith
        have hH6 : ((g - b) / (mx - mn) + 6) / 6 * 6 = (g - b) / (mx - mn) + 6 :=
          div_mul_cancel₀ _ (by norm_num)
        rw [hsvToRgb_sector5 _ _ _ hs (by rw [hH6]; linarith) (by rw [hH6]; linarith)]
        rw [hH6]
        simp only [rgbf.mk.injEq]
        have hrgne : r - g ≠ 0 := by rw [← hxr, ← hmneqg]; exact hdne
        refine ⟨?_, ?_, ?_⟩
        · rw [hxr]; exact hr255
        · rw [hxr, hmneqg, ← hg255]
          field_simp
        · rw [hxr, hmneqg, ← hb255]
          field_simp
          ring
      · -- b ≤ g
        rw [if_neg ht]
        have hbg : b ≤ g := by
          by_contra hcon
          exact ht (div_neg_of_neg_of_pos (by linarith) (by linarith))
        have hmneqb : mn = b := by
          rw [hmineq, min_eq_right hgr]; exact min_eq_right hbg
        have hrbne : r - b ≠ 0 := by rw [← hxr, ← hmneqb]; exact hdne
        have ht1 : (g - b) / (mx - mn) ≤ 1 := by
          rw [div_le_one (by linarith)]
          linarith
        by_cases htlt : (g - b) / (mx - mn) < 1
        · -- sector 0
          have hH6 : (g - b) / (mx - mn) / 6 * 6 = (g - b) / (mx - mn) :=
            div_mul_cancel₀ _ (by norm_num)
          rw [hsvToRgb_sector0 _ _ _ hs (by rw [hH6]; exact not_lt.mp ht)
            (by rw [hH6]; exact htlt)]
          rw [hH6]
          simp only [rgbf.mk.injEq]
          refine ⟨?_, ?_, ?_⟩
          · rw [hxr]; exact hr255
          · rw [hxr, hmneqb, ← hg255]
            field_simp
            ring
          · rw [hxr, hmneqb, ← hb255]
            field_simp
        · -- t = 1: g = r, sector 1
          have hteq : (g - b) / (mx - mn) = 1 := le_antisymm ht1 (not_lt.mp htlt)
          have hgbd : g - b = mx - mn := (div_eq_one_iff_eq hdne).mp hteq
          have hgeqr : g = r := by
            rw [hxr, hmneqb] at hgbd
            linarith
          rw [hteq]
          rw [hsvToRgb_sector1 _ _ _ hs (by norm_num) (by norm_num)]
          simp only [rgbf.mk.injEq]
          have h0 : (1 : ℚ) / 6 * 6 - 1 = 0 := by norm_num
          refine ⟨?_, ?_, ?_⟩
          · rw [h0, mul_zero, sub_zero, mul_one, hxr]; exact hr255
          · rw [hxr, ← hgeqr]; exact hg255
          · rw [hxr, hmneqb, ← hb255]
            field_simp
    · by_cases hxg : mx = g
      · -- max is g
        rw [if_neg hxr, if_pos hxg]
        have hrltg : r < mx := lt_of_le_of_ne hrle (fun hcon => hxr hcon.symm)
        have hrg : r ≤ g := by rw [← hxg]; exact hrle
        have hbg : b ≤ g := by rw [← hxg]; exact hble
        have hgne : g ≠ 0 := by rw [← hxg]; exact hmxne
        have ht2l : -1 < (b - r) / (mx - mn) := by
          rw [lt_div_iff (by linarith : (0 : ℚ) < mx - mn)]
          linarith
        have ht2u : (b - r) / (mx - mn) ≤ 1 := by
          rw [div_le_one (by linarith)]
          linarith
        by_cases htb : (b - r) / (mx - mn) < 0
        · -- b < r: sector 1
          have hbr : b < r := by
            by_contra hcon
            exact absurd (div_nonneg (by linarith) (by linarith)) (not_le.mpr htb)
          have hmneqb : mn = b := by
            rw [hmineq, min_eq_left hrg]; exact min_eq_right hbr.le
          have hgbne : g - b ≠ 0 := by rw [← hxg, ← hmneqb]; exact hdne
          have hH6 : (2 + (b - r) / (mx - mn)) / 6 * 6 = 2 + (b - r) / (mx - mn) :=
            div_mul_cancel₀ _ (by norm_num)
          rw [hsvToRgb_sector1 _ _ _ hs (by rw [hH6]; linarith) (by rw [hH6]; linarith)]
          rw [hH6]
          simp only [rgbf.mk.injEq]
          refine ⟨?_, ?_, ?_⟩
          · rw [hxg, hmneqb, ← hr255]
            field_simp
            ring
          · rw [hxg]; exact hg255
          · rw [hxg, hmneqb, ← hb255]
            field_simp
        · by_cases htb1 : (b - r) / (mx - mn) < 1
          · -- r ≤ b: sector 2
            have hrb : r ≤ b := by
              by_contra hcon
              exact htb (div_neg_of_neg_of_pos (by linarith) (by linarith))
            have hmneqr : mn = r := by
              rw [hmineq, min_eq_left hrg]; exact min_eq_left hrb
            have hgrne : g - r ≠ 0 := by rw [← hxg, ← hmneqr]; exact hdne
            have hH6 : (2 + (b - r) / (mx - mn)) / 6 * 6 = 2 + (b - r) / (mx - mn) :=
              div_mul_cancel₀ _ (by norm_num)
            rw [hsvToRgb_sector2 _ _ _ hs
              (by rw [hH6]; linarith [not_lt.mp htb]) (by rw [hH6]; linarith)]
            rw [hH6]
            simp only [rgbf.mk.injEq]
            refine ⟨?_, ?_, ?_⟩
            · rw [hxg, hmneqr, ← hr255]
              field_simp
            · rw [hxg]; exact hg255
            · rw [hxg, hmneqr, ← hb255]
              field_simp
              ring
          · -- t2 = 1: b = g = mx, mn = r, sector 3
            have hteq : (b - r) / (mx - mn) = 1 := le_antisymm ht2u (not_lt.mp htb1)
            have hbrd : b - r = mx - mn := (div_eq_one_iff_eq hdne).mp hteq
            have hbmx : b = mx := by linarith
            have hmneqr : mn = r := by linarith
            rw [hteq]
            rw [hsvToRgb_sector3 _ _ _ hs (by norm_num) (by norm_num)]
            simp only [rgbf.mk.injEq]
            have h0 : ((2 : ℚ) + 1) / 6 * 6 - 3 = 0 := by norm_num
            refine ⟨?_, ?_, ?_⟩
            · rw [hxg, hmneqr, ← hr255]
              field_simp
            · rw [h0, mul_zero, sub_zero, mul_one, hxg]; exact hg255
            · rw [← hbmx]; exact hb255
      · -- max is b
        rw [if_neg hxr, if_neg hxg]
        have hxb : mx = b := by
          rcases max_choice (max r g) b with hc | hc
          · rcases max_choice r g with hc2 | hc2
            · exact absurd (by rw [hmaxeq, hc, hc2]) hxr
            · exact absurd (by rw [hmaxeq, hc, hc2]) hxg
          · rw [hmaxeq, hc]
        have hrltb : r < mx := lt_of_le_of_ne hrle (fun hcon => hxr hcon.symm)
        have hgltb : g < mx := lt_of_le_of_ne hgle (fun hcon => hxg hcon.symm)
        have hrb : r ≤ b := by rw [← hxb]; exact hrle
        have hgb : g ≤ b := by rw [← hxb]; exact hgle
        have hbne : b ≠ 0 := by rw [← hxb]; exact hmxne
        have ht3l : -1 < (r - g) / (mx - mn) := by
          rw [lt_div_iff (by linarith : (0 : ℚ) < mx - mn)]
          linarith
        have ht3u : (r - g) / (mx - mn) < 1 := by
          rw [div_lt_one (by linarith)]
          linarith
        by_cases htr : (r - g) / (mx - mn) < 0
        · -- r < g: sector 3
          have hrg : r < g := by
            by_contra hcon
            exact absurd (div_nonneg (by linarith) (by linarith)) (not_le.mpr htr)
          have hmneqr : mn = r := by
            rw [hmineq, min_eq_left hrg.le]; exact min_eq_left hrb
          have hbrne : b - r ≠ 0 := by rw [← hxb, ← hmneqr]; exact hdne
          have hH6 : (4 + (r - g) / (mx - mn)) / 6 * 6 = 4 + (r - g) / (mx - mn) :=
            div_mul_cancel₀ _ (by norm_num)
          rw [hsvToRgb_sector3 _ _ _ hs (by rw [hH6]; linarith) (by rw [hH6]; linarith)]
          rw [hH6]
          simp only [rgbf.mk.injEq]
          refine ⟨?_, ?_, ?_⟩
          · rw [hxb, hmneqr, ← hr255]
            field_simp
          · rw [hxb, hmneqr, ← hg255]
            field_simp
            ring
          · rw [hxb]; exact hb255
        · -- g ≤ r: sector 4
          have hgr : g ≤ r := by
            by_contra hcon
            exact htr (div_neg_of_neg_of_pos (by linarith) (by linarith))
          have hmneqg : mn = g := by
            rw [hmineq, min_eq_right hgr]; exact min_eq_left hgb
          have hbgne : b - g ≠ 0 := by rw [← hxb, ← hmneqg]; exact hdne
          have hH6 : (4 + (r - g) / (mx - mn)) / 6 * 6 = 4 + (r - g) / (mx - mn) :=
            div_mul_cancel₀ _ (by norm_num)
          rw [hsvToRgb_sector4 _ _ _ hs
            (by rw [hH6]; linarith [not_lt.mp htr]) (by rw [hH6]; linarith)]
          rw [hH6]
          simp only [rgbf.mk.injEq]
          refine ⟨?_, ?_, ?_⟩
          · rw [hxb, hmneqg, ← hr255]
            field_simp
            ring
          · rw [hxb, hmneqg, ← hg255]
            field_simp
          · rw [hxb]; exact hb255
  · -- grayscale case
    have hdeq : mx - mn = 0 := le_antisymm (not_lt.mp hd) (by linarith)
    have hreq : r = mx := le_antisymm hrle (by linarith)
    have hgeq : g = mx := le_antisymm hgle (by linarith)
    have hbeq : b = mx := le_antisymm hble (by linarith)
    rw [if_neg hd]
    have hSz : (if 0 < mx then (mx - mn) / mx else mx - mn) = 0 := by
      by_cases hmxp : 0 < mx
      · rw [if_pos hmxp, hdeq, zero_div]
      · rw [if_neg hmxp, hdeq]
    rw [hSz]
    unfold hsvToRgb
    rw [if_neg (lt_irrefl 0)]
    simp only [rgbf.mk.injEq]
    refine ⟨?_, ?_, ?_⟩
    · rw [← hreq]; exact hr255
    · rw [← hgeq]; exact hg255
    · rw [← hbeq]; exact hb255

end Noteshrink

namespace Noteshrink

/-- C6: for every color with channels in `[0, 255]`, the HSV round trip
`hsvToRgb (rgbToHsv c)` differs from `c` by at most `1/255` per channel (in
the exact-rational embedding the round trip is in fact the identity). -/
theorem hsv_roundtrip_within_tolerance (p : rgbf)
    (hr0 : 0 ≤ p.r) (hr1 : p.r ≤ 255) (hg0 : 0 ≤ p.g) (hg1 : p.g ≤ 255)
    (hb0 : 0 ≤ p.b) (hb1 : p.b ≤ 255) :
    |(hsvToRgb (rgbToHsv p).1 (rgbToHsv p).2.1 (rgbToHsv p).2.2).r - p.r| ≤ 1 / 255 ∧
    |(hsvToRgb (rgbToHsv p).1 (rgbToHsv p).2.1 (rgbToHsv p).2.2).g - p.g| ≤ 1 / 255 ∧
    |(hsvToRgb (rgbToHsv p).1 (rgbToHsv p).2.1 (rgbToHsv p).2.2).b - p.b| ≤ 1 / 255 := by
  have hp : p = ⟨p.r, p.g, p.b⟩ := rfl
  have hexact := roundtrip_core p.r p.g p.b hr0 hg0 hb0
  rw [← hp] at hexact
  rw [hexact]
  norm_num

theorem hsv_roundtrip_within_tolerance_witness :
    ((0 : ℚ) ≤ 10 ∧ (10 : ℚ) ≤ 255 ∧ (0 : ℚ) ≤ 200 ∧ (200 : ℚ) ≤ 255 ∧
      (0 : ℚ) ≤ 30 ∧ (30 : ℚ) ≤ 255) ∧
    (|(hsvToRgb (rgbToHsv ⟨10, 200, 30⟩).1 (rgbToHsv ⟨10, 200, 30⟩).2.1
        (rgbToHsv ⟨10, 200, 30⟩).2.2).r - (10 : ℚ)| ≤ 1 / 255 ∧
     |(hsvToRgb (rgbToHsv ⟨10, 200, 30⟩).1 (rgbToHsv ⟨10, 200, 30⟩).2.1
        (rgbToHsv ⟨10, 200, 30⟩).2.2).g - (200 : ℚ)| ≤ 1 / 255 ∧
     |(hsvToRgb (rgbToHsv ⟨10, 200, 30⟩).1 (rgbToHsv ⟨10, 200, 30⟩).2.1
        (rgbToHsv ⟨10, 200, 30⟩).2.2).b - (30 : ℚ)| ≤ 1 / 255) :=
  ⟨by norm_num,
   hsv_roundtrip_within_tolerance ⟨10, 200, 30⟩ (by norm_num) (by norm_num)
     (by norm_num) (by norm_num) (by norm_num) (by norm_num)⟩

end Noteshrink
